import Mathlib

/-!
Verification development for `blockparse.py`: the two EVM block-parser
variants (`EVMDasmParser` for disassembly text, `EVMBytecodeParser` for raw
byte streams) are shallowly embedded below, and the stated properties of the
operation sequences they produce are proved or refuted.

The collaborator modules `opcodes` and `evm_cfg` are not part of the given
source; the pieces of them that the parsers use (opcode descriptors, the
name/value lookup tables, the push predicate and immediate widths, and the
`EVMOp` record) are modelled from the specification and marked as such.
-/

namespace BlockParse

/-- Modelled from the spec: an opcode descriptor from the `opcodes`
collaborator, carrying the mnemonic and the numeric code.  The push
predicate and the immediate width are derived from the numeric code
(push opcodes form a contiguous range starting at `PUSH1`). -/
structure OpCode where
  name : List Char
  code : Nat
  deriving DecidableEq, Repr

/-- Modelled from the spec: `opcodes.PUSH1.code`, the first push opcode. -/
def PUSH1code : Nat := 96

/-- Modelled from the spec: `opcodes.PUSH32.code`, the last push opcode. -/
def PUSH32code : Nat := 127

/-- Modelled from the spec: the `is_push` predicate of an opcode
descriptor — its code lies in the contiguous push range. -/
def OpCode.is_push (op : OpCode) : Bool :=
  decide (PUSH1code ≤ op.code ∧ op.code ≤ PUSH32code)

/-- The immediate width used by `EVMBytecodeParser.parse`:
`op.code - opcodes.PUSH1.code + 1` for a push opcode, `0` otherwise. -/
def immWidth (op : OpCode) : Nat :=
  if op.is_push then op.code - PUSH1code + 1 else 0

/-- Modelled from the spec: the mnemonic of the push opcode with code `c`. -/
def pushName (c : Nat) : List Char :=
  "PUSH".data ++ Nat.toDigits 10 (c - PUSH1code + 1)

/-- Modelled from the spec: `opcodes.opcode_by_value` — resolve a numeric
byte value to its descriptor, or fail (`LookupError`) when no opcode is
registered for that value.  The table holds the opcodes named by the spec:
`ADD` (code 1) and the contiguous push range `PUSH1`..`PUSH32`
(codes 96..127); every other value is unregistered. -/
def opcode_by_value (b : Nat) : Option OpCode :=
  if b = 1 then some ⟨"ADD".data, 1⟩
  else if PUSH1code ≤ b ∧ b ≤ PUSH32code then some ⟨pushName b, b⟩
  else none

/-- Modelled from the spec: `opcodes.opcode_by_name` — resolve a mnemonic
to its descriptor, or fail (`LookupError`) for an unknown mnemonic. -/
def opcode_by_name (s : List Char) : Option OpCode :=
  if s = "ADD".data then some ⟨"ADD".data, 1⟩
  else (List.range 32).findSome? fun i =>
    if s = pushName (PUSH1code + i) then some ⟨pushName (PUSH1code + i), PUSH1code + i⟩
    else none

/-- Modelled from the spec: `evm_cfg.EVMOp` — one decoded operation with
its program counter, opcode descriptor, and optional immediate operand. -/
structure EVMOp where
  pc : Nat
  opcode : OpCode
  operand : Option Nat
  deriving DecidableEq, Repr

/-- `int.from_bytes(bytes_, "big")`: big-endian interpretation of a byte
slice; the empty slice yields `0`. -/
def fromBytesBE (l : List Nat) : Nat :=
  l.foldl (fun acc b => acc * 256 + b) 0

/-- `EVMBytecodeParser.parse`, embedded over the remaining byte list:
`b :: rest` means the cursor sits on byte `b`.  Each step records
`pc`, consumes one byte, resolves it via `opcode_by_value` (an
unregistered value is a hard failure, propagated), and for a push
opcode consumes `immWidth` further bytes big-endian as the operand —
`List.take` silently truncates when fewer bytes remain, exactly as the
Python slice `self._raw[self.__pc : self.__pc + n]` does.  The resulting
operation list is what the parser hands to the external block builder. -/
def bcParse : List Nat → Nat → Except Unit (List EVMOp)
  | [], _ => .ok []
  | b :: rest, pc =>
    match opcode_by_value b with
    | none => .error ()
    | some op =>
      let const_size := if op.is_push then op.code - PUSH1code + 1 else 0
      let const : Option Nat :=
        if const_size > 0 then some (fromBytesBE (rest.take const_size)) else none
      match bcParse (rest.drop const_size) (pc + 1 + const_size) with
      | .ok ops => .ok (⟨pc, op, const⟩ :: ops)
      | .error e => .error e
  termination_by l _ => l.length
  decreasing_by
    simp only [List.length_drop, List.length_cons]
    omega

/-- Sanity: the modelled table leaves byte 0 unregistered, so a buffer
reaching it at an opcode position fails hard. -/
theorem bcParse_sanity_error : bcParse [96, 1, 96, 2, 1, 0] 0 =
    .error () := by
  simp [bcParse, opcode_by_value, OpCode.is_push, PUSH1code, PUSH32code]

/-- Sanity: the byte scenario from the spec, PUSH1 01, PUSH1 02, ADD. -/
theorem bcParse_sanity_scenario : bcParse [96, 1, 96, 2, 1] 0 =
    .ok [⟨0, ⟨pushName 96, 96⟩, some 1⟩, ⟨2, ⟨pushName 96, 96⟩, some 2⟩,
         ⟨4, ⟨"ADD".data, 1⟩, none⟩] := by
  simp [bcParse, opcode_by_value, OpCode.is_push, PUSH1code, PUSH32code, fromBytesBE]

/-- Python `str.split()`: split on runs of whitespace, discarding empty
tokens.  The accumulator holds the current token reversed. -/
def wsSplit (acc : List Char) : List Char → List (List Char)
  | [] => if acc = [] then [] else [acc.reverse]
  | c :: rest =>
    if c.isWhitespace then
      if acc = [] then wsSplit [] rest else acc.reverse :: wsSplit [] rest
    else wsSplit (c :: acc) rest

/-- Python `line.replace("=>", " ")`: left-to-right, non-overlapping
substitution of every occurrence of the two-character pattern. -/
def subArrow : List Char → List Char
  | '=' :: '>' :: rest => ' ' :: subArrow rest
  | c :: rest => c :: subArrow rest
  | [] => []

/-- `int(tok)` on a whitespace-free token as it appears in disassembly:
a nonempty string of decimal digits (the spec fixes `pc` as a
non-negative integer).  `none` models the `ValueError` raise. -/
def parseDec (l : List Char) : Option Nat :=
  if l = [] then none
  else if l.all Char.isDigit then
    some (l.foldl (fun acc c => acc * 10 + (c.toNat - 48)) 0)
  else none

/-- The numeric value of one hexadecimal digit, or `none`. -/
def hexVal (c : Char) : Option Nat :=
  if '0' ≤ c ∧ c ≤ '9' then some (c.toNat - 48)
  else if 'a' ≤ c ∧ c ≤ 'f' then some (c.toNat - 87)
  else if 'A' ≤ c ∧ c ≤ 'F' then some (c.toNat - 55)
  else none

/-- `int(tok, 16)` on a whitespace-free token: an optional `0x`/`0X`
marker followed by a nonempty string of hex digits.  `none` models the
`ValueError` raise. -/
def parseHex (l : List Char) : Option Nat :=
  let digits :=
    match l with
    | '0' :: 'x' :: rest => rest
    | '0' :: 'X' :: rest => rest
    | other => other
  if digits = [] then none
  else if (digits.map hexVal).all Option.isSome then
    some (digits.foldl (fun acc c => acc * 16 + ((hexVal c).getD 0)) 0)
  else none

/-- The two exception classes that can escape `evm_op_from_dasm`:
`ValueError`/`LookupError` (caught by `EVMDasmParser.parse`) and the
`NotImplementedError` raised for an unknown format (not caught). -/
inductive DasmErr where
  | valueOrLookup
  | notImplemented
  deriving DecidableEq, Repr

/-- `EVMDasmParser.evm_op_from_dasm`: substitute `=>`, split, and build an
`EVMOp` from the first two or three tokens; a numeric-parse or
mnemonic-lookup failure is `valueOrLookup`, and a token list shorter
than two raises `notImplemented`. -/
def evm_op_from_dasm (line : List Char) : Except DasmErr EVMOp :=
  match wsSplit [] (subArrow line) with
  | t0 :: t1 :: t2 :: _ =>
    match parseDec t0, opcode_by_name t1, parseHex t2 with
    | some pc, some op, some v => .ok ⟨pc, op, some v⟩
    | _, _, _ => .error .valueOrLookup
  | [t0, t1] =>
    match parseDec t0, opcode_by_name t1 with
    | some pc, some op => .ok ⟨pc, op, none⟩
    | _, _ => .error .valueOrLookup
  | _ => .error .notImplemented

/-- `EVMDasmParser.parse`, embedded over the list of input lines.  Per
line: if `len(l.split()) == 1` (note: the raw line, without the `=>`
substitution) warn and skip; if the count is `0` skip silently;
otherwise build the operation, appending it on success, warning on a
caught `ValueError`/`LookupError`, and propagating any other raise.
The result pairs the operation sequence handed to the external block
builder with the number of warnings emitted. -/
def dasmParse : List (List Char) → Except DasmErr (List EVMOp × Nat)
  | [] => .ok ([], 0)
  | l :: rest =>
    let n := (wsSplit [] l).length
    if n = 1 then
      match dasmParse rest with
      | .ok (ops, w) => .ok (ops, w + 1)
      | .error e => .error e
    else if n < 1 then dasmParse rest
    else
      match evm_op_from_dasm l with
      | .ok op =>
        match dasmParse rest with
        | .ok (ops, w) => .ok (op :: ops, w)
        | .error e => .error e
      | .error .valueOrLookup =>
        match dasmParse rest with
        | .ok (ops, w) => .ok (ops, w + 1)
        | .error e => .error e
      | .error .notImplemented => .error .notImplemented

/-- Sanity: the three-line text scenario from the spec. -/
theorem dasmParse_sanity_scenario :
    dasmParse ["0 PUSH1 => 01".data, "1 PUSH1 => 02".data, "2 ADD".data] =
    .ok ([⟨0, ⟨pushName 96, 96⟩, some 1⟩, ⟨1, ⟨pushName 96, 96⟩, some 2⟩,
          ⟨2, ⟨"ADD".data, 1⟩, none⟩], 0) := by
  rfl

/-- Python `bytecode.replace("0x", "")` as performed by
`EVMBytecodeParser.__init__`: every occurrence of the two-character
pattern `0x` is removed, scanning left to right without overlap. -/
def strip0x : List Char → List Char
  | '0' :: 'x' :: rest => strip0x rest
  | c :: rest => c :: strip0x rest
  | [] => []

/-- The ASCII whitespace characters that CPython's `Py_ISSPACE` accepts
and `bytes.fromhex` skips between byte pairs. -/
def isPySpace (c : Char) : Bool :=
  c == ' ' || c == '\t' || c == '\n' || c == '\x0b' || c == '\x0c' || c == '\r'

/-- Python `bytes.fromhex`, following CPython's decoding loop: ASCII
whitespace is skipped before each byte pair, then exactly two hex digits
(with no whitespace between them) form one byte; a lone trailing digit
or a non-hex character raises `ValueError`, modelled as `none`. -/
def fromhex : List Char → Option (List Nat)
  | [] => some []
  | c :: rest =>
    if isPySpace c then fromhex rest
    else
      match rest with
      | [] => none
      | c2 :: rest2 =>
        match hexVal c, hexVal c2, fromhex rest2 with
        | some h1, some h2, some t => some ((h1 * 16 + h2) :: t)
        | _, _, _ => none

/-- The string arm of `EVMBytecodeParser.__init__`:
`bytes.fromhex(bytecode.replace("0x", ""))`. -/
def bytecode_from_hex (s : List Char) : Option (List Nat) :=
  fromhex (strip0x s)

/-- Fixed-width big-endian encoding of an integer, the inverse of
`fromBytesBE` used to state the byte-variant round-trip property. -/
def toBytesBE : Nat → Nat → List Nat
  | 0, _ => []
  | w + 1, n => toBytesBE w (n / 256) ++ [n % 256]

/-- Encoding of one operation back into bytes: one opcode byte followed
by the big-endian immediate bytes when an operand is present. -/
def encodeOp (op : EVMOp) : List Nat :=
  op.opcode.code ::
    match op.operand with
    | some v => toBytesBE (immWidth op.opcode) v
    | none => []

/-- Encoding of an operation sequence back into a byte buffer. -/
def encodeOps : List EVMOp → List Nat
  | [] => []
  | op :: rest => encodeOp op ++ encodeOps rest

/-- A single well-formed operation: its opcode is the registered
descriptor for its own code, and its operand is present exactly for a
push-class opcode, with a value that fits in the immediate width. -/
def opWF (op : EVMOp) : Bool :=
  decide (opcode_by_value op.opcode.code = some op.opcode) &&
    match op.operand with
    | some v => op.opcode.is_push && decide (v < 256 ^ immWidth op.opcode)
    | none => !op.opcode.is_push

/-- A well-formed (non-truncated) operation sequence starting at program
counter `pc`: operations are well formed and consecutively laid out. -/
def WFOps : Nat → List EVMOp → Bool
  | _, [] => true
  | pc, op :: rest =>
    decide (op.pc = pc) && opWF op && WFOps (pc + 1 + immWidth op.opcode) rest

theorem length_toBytesBE (w n : Nat) : (toBytesBE w n).length = w := by
  induction w generalizing n with
  | zero => rfl
  | succ w ih => simp [toBytesBE, ih]

theorem fromBytesBE_append_singleton (l : List Nat) (b : Nat) :
    fromBytesBE (l ++ [b]) = fromBytesBE l * 256 + b := by
  simp [fromBytesBE]

theorem fromBytesBE_toBytesBE (w n : Nat) (h : n < 256 ^ w) :
    fromBytesBE (toBytesBE w n) = n := by
  induction w generalizing n with
  | zero =>
    interval_cases n
    rfl
  | succ w ih =>
    rw [toBytesBE, fromBytesBE_append_singleton, ih (n / 256) (by rw [pow_succ] at h; omega)]
    omega

theorem immWidth_pos (op : OpCode) (h : op.is_push = true) : 0 < immWidth op := by
  simp [immWidth, h]

theorem bcParse_nil (pc : Nat) : bcParse [] pc = .ok [] := by
  simp [bcParse]

theorem bcParse_cons (b : Nat) (rest : List Nat) (pc : Nat) :
    bcParse (b :: rest) pc =
      match opcode_by_value b with
      | none => .error ()
      | some op =>
        match bcParse (rest.drop (immWidth op)) (pc + 1 + immWidth op) with
        | .ok ops => .ok (⟨pc, op,
            if 0 < immWidth op then some (fromBytesBE (rest.take (immWidth op)))
            else none⟩ :: ops)
        | .error e => .error e := by
  rw [bcParse]
  rfl

/-- Every operation produced by the byte-stream parser carries an operand
exactly when its opcode is push-class. -/
theorem bcParse_operand_push :
    ∀ (l : List Nat) (pc : Nat) (ops : List EVMOp), bcParse l pc = .ok ops →
      ∀ op ∈ ops, op.operand.isSome = op.opcode.is_push := by
  suffices H : ∀ (n : Nat) (l : List Nat), l.length ≤ n → ∀ (pc : Nat) (ops : List EVMOp),
      bcParse l pc = .ok ops → ∀ op ∈ ops, op.operand.isSome = op.opcode.is_push by
    exact fun l => H l.length l le_rfl
  intro n
  induction n with
  | zero =>
    intro l hl pc ops h
    rw [List.length_eq_zero.mp (Nat.le_zero.mp hl)] at h
    rw [bcParse_nil] at h
    cases h
    intro op hop
    cases hop
  | succ n ih =>
    intro l hl pc ops h
    match l with
    | [] =>
      rw [bcParse_nil] at h
      cases h
      intro op hop
      cases hop
    | b :: rest =>
      rw [bcParse_cons] at h
      split at h
      next => cases h
      next opd hov =>
        split at h
        next tl hrec =>
          cases h
          intro op hop
          cases hop with
          | head =>
            by_cases hp : opd.is_push = true
            · simp [hp, immWidth_pos opd hp]
            · simp only [Bool.not_eq_true] at hp
              simp [hp, immWidth]
          | tail _ hmem =>
            have hlen : (rest.drop (immWidth opd)).length ≤ n := by
              simp only [List.length_drop]
              simp only [List.length_cons] at hl
              omega
            exact ih (rest.drop (immWidth opd)) hlen (pc + 1 + immWidth opd) tl hrec op hmem
        next e hrec => cases h

/-- The first operation produced by the byte-stream parser is tagged with
the starting program counter. -/
theorem bcParse_head_pc (l : List Nat) (pc : Nat) (ops : List EVMOp)
    (h : bcParse l pc = .ok ops) : ∀ op ∈ ops.head?, op.pc = pc := by
  match l with
  | [] =>
    rw [bcParse_nil] at h
    cases h
    intro op hop
    cases hop
  | b :: rest =>
    rw [bcParse_cons] at h
    split at h
    next => cases h
    next opd hov =>
      split at h
      next tl hrec =>
        cases h
        intro op hop
        simp only [List.head?_cons, Option.mem_def, Option.some.injEq] at hop
        rw [← hop]
      next e hrec => cases h

/-- Adjacent operations produced by the byte-stream parser are laid out at
stride `1 + immWidth`. -/
theorem bcParse_chain :
    ∀ (l : List Nat) (pc : Nat) (ops : List EVMOp), bcParse l pc = .ok ops →
      List.Chain' (fun a b => b.pc = a.pc + 1 + immWidth a.opcode) ops := by
  suffices H : ∀ (n : Nat) (l : List Nat), l.length ≤ n → ∀ (pc : Nat) (ops : List EVMOp),
      bcParse l pc = .ok ops →
      List.Chain' (fun a b => b.pc = a.pc + 1 + immWidth a.opcode) ops by
    exact fun l => H l.length l le_rfl
  intro n
  induction n with
  | zero =>
    intro l hl pc ops h
    rw [List.length_eq_zero.mp (Nat.le_zero.mp hl)] at h
    rw [bcParse_nil] at h
    cases h
    exact List.chain'_nil
  | succ n ih =>
    intro l hl pc ops h
    match l with
    | [] =>
      rw [bcParse_nil] at h
      cases h
      exact List.chain'_nil
    | b :: rest =>
      rw [bcParse_cons] at h
      split at h
      next => cases h
      next opd hov =>
        split at h
        next tl hrec =>
          cases h
          rw [List.chain'_cons']
          constructor
          · intro y hy
            have := bcParse_head_pc _ _ _ hrec y hy
            simpa using this
          · have hlen : (rest.drop (immWidth opd)).length ≤ n := by
              simp only [List.length_drop]
              simp only [List.length_cons] at hl
              omega
            exact ih (rest.drop (immWidth opd)) hlen (pc + 1 + immWidth opd) tl hrec
        next e hrec => cases h

/-- Parsing a well-formed encoded operation sequence followed by any tail
first reproduces the sequence, then continues into the tail. -/
theorem bcParse_encodeOps (ops : List EVMOp) :
    ∀ (pc : Nat) (tail : List Nat), WFOps pc ops = true →
    bcParse (encodeOps ops ++ tail) pc =
      match bcParse tail (pc + (encodeOps ops).length) with
      | .ok t => .ok (ops ++ t)
      | .error e => .error e := by
  induction ops with
  | nil =>
    intro pc tail _
    simp only [encodeOps, List.nil_append, List.length_nil, Nat.add_zero]
    cases h : bcParse tail pc <;> simp
  | cons op rest ih =>
    obtain ⟨apc, aop, aoperand⟩ := op
    intro pc tail hwf
    simp only [WFOps, Bool.and_eq_true, decide_eq_true_eq] at hwf
    obtain ⟨⟨hpc, hop⟩, hrest⟩ := hwf
    subst hpc
    cases aoperand with
    | none =>
      simp only [opWF, Bool.and_eq_true, decide_eq_true_eq, Bool.not_eq_true'] at hop
      obtain ⟨hov, hnp⟩ := hop
      have hw : immWidth aop = 0 := by simp [immWidth, hnp]
      rw [hw] at hrest
      simp only [encodeOps, encodeOp, List.cons_append, List.nil_append, List.append_assoc]
      rw [bcParse_cons]
      simp only [hov, hw, List.drop_zero, List.take_zero, Nat.lt_irrefl, if_false,
        Nat.add_zero]
      rw [ih (apc + 1) (tail) hrest]
      simp only [List.length_append, List.length_cons, List.length_nil]
      have harith : apc + 1 + (encodeOps rest).length
          = apc + ((encodeOps rest).length + 1) := by omega
      rw [harith]
      cases h2 : bcParse tail (apc + ((encodeOps rest).length + 1)) <;> simp
    | some v =>
      simp only [opWF, Bool.and_eq_true, decide_eq_true_eq] at hop
      obtain ⟨hov, hp, hlt⟩ := hop
      have hwpos : 0 < immWidth aop := immWidth_pos aop hp
      simp only [encodeOps, encodeOp, List.cons_append, List.append_assoc]
      rw [bcParse_cons]
      simp only [hov, hwpos, if_true,
        List.take_left' (length_toBytesBE (immWidth aop) v),
        List.drop_left' (length_toBytesBE (immWidth aop) v),
        fromBytesBE_toBytesBE (immWidth aop) v hlt]
      rw [ih (apc + 1 + immWidth aop) tail hrest]
      simp only [List.length_append, List.length_cons, length_toBytesBE]
      have harith : apc + 1 + immWidth aop + (encodeOps rest).length
          = apc + (immWidth aop + (encodeOps rest).length + 1) := by omega
      rw [harith]
      cases h2 : bcParse tail (apc + (immWidth aop + (encodeOps rest).length + 1)) <;> simp

/-- After a well-formed encoded sequence, a final push opcode with fewer
remaining bytes than its declared width yields one final operation whose
operand covers only the bytes actually available. -/
theorem bcParse_encode_trailing (ops : List EVMOp) (b : Nat) (opd : OpCode)
    (rest : List Nat) (hwf : WFOps 0 ops = true)
    (hov : opcode_by_value b = some opd) (hp : opd.is_push = true)
    (hlen : rest.length < immWidth opd) :
    bcParse (encodeOps ops ++ b :: rest) 0 =
      .ok (ops ++ [⟨(encodeOps ops).length, opd, some (fromBytesBE rest)⟩]) := by
  rw [bcParse_encodeOps ops 0 (b :: rest) hwf, bcParse_cons]
  simp only [hov]
  rw [show rest.drop (immWidth opd) = [] from List.drop_eq_nil_iff.mpr hlen.le]
  rw [List.take_of_length_le hlen.le]
  simp [bcParse_nil, immWidth_pos opd hp]

/-- A whitespace character is never a hex digit. -/
theorem hexVal_isPySpace (c : Char) (h : isPySpace c = true) : hexVal c = none := by
  simp only [isPySpace, Bool.or_eq_true, beq_iff_eq] at h
  rcases h with ((((h | h) | h) | h) | h) | h <;> subst h <;> rfl

theorem fromhex_cons (c : Char) (rest : List Char) :
    fromhex (c :: rest) =
      if isPySpace c then fromhex rest
      else
        match rest with
        | [] => none
        | c2 :: rest2 =>
          match hexVal c, hexVal c2, fromhex rest2 with
          | some h1, some h2, some t => some ((h1 * 16 + h2) :: t)
          | _, _, _ => none := by
  rw [fromhex.eq_def]

/-- `bytes.fromhex` fails whenever the number of non-whitespace
characters is odd. -/
theorem fromhex_odd_nonws :
    ∀ (l : List Char), ((l.filter fun c => !isPySpace c).length) % 2 = 1 →
      fromhex l = none := by
  suffices H : ∀ (n : Nat) (l : List Char), l.length ≤ n →
      ((l.filter fun c => !isPySpace c).length) % 2 = 1 → fromhex l = none by
    exact fun l => H l.length l le_rfl
  intro n
  induction n with
  | zero =>
    intro l hl hodd
    rw [List.length_eq_zero.mp (Nat.le_zero.mp hl)] at hodd
    simp at hodd
  | succ n ih =>
    intro l hl hodd
    cases l with
    | nil => simp at hodd
    | cons c rest =>
      rw [fromhex_cons]
      by_cases hws : isPySpace c = true
      · rw [if_pos hws]
        rw [List.filter_cons_of_neg (by simp [hws])] at hodd
        refine ih rest ?_ hodd
        simp only [List.length_cons] at hl
        omega
      · rw [if_neg hws]
        have hws' : isPySpace c = false := by
          cases hc : isPySpace c
          · rfl
          · exact absurd hc hws
        rw [List.filter_cons_of_pos (by simp [hws'])] at hodd
        simp only [List.length_cons] at hodd
        cases rest with
        | nil => rfl
        | cons c2 rest2 =>
          show (match hexVal c, hexVal c2, fromhex rest2 with
            | some h1, some h2, some t => some ((h1 * 16 + h2) :: t)
            | _, _, _ => none) = none
          cases h1 : hexVal c with
          | none => rfl
          | some v1 =>
            cases h2 : hexVal c2 with
            | none => rfl
            | some v2 =>
              have hc2 : isPySpace c2 = false := by
                cases hc : isPySpace c2
                · rfl
                · rw [hexVal_isPySpace c2 hc] at h2
                  cases h2
              rw [List.filter_cons_of_pos (by simp [hc2])] at hodd
              simp only [List.length_cons] at hodd
              have hrec : fromhex rest2 = none := by
                refine ih rest2 ?_ ?_
                · simp only [List.length_cons] at hl
                  omega
                · omega
              rw [hrec]

/-- C1 (divergence witness): the input line `"x =>"` passes the raw-split
guard (two tokens) but, after the `=>` substitution, leaves a single
token, so `evm_op_from_dasm` raises `NotImplementedError`; `parse`
catches only `ValueError` and `LookupError`, so the whole parse aborts
and loses the surrounding valid lines, contradicting the claim that the
text parse always completes with a best-effort sequence. -/
theorem dasm_parse_aborts_on_arrow_only_line :
    dasmParse ["0 PUSH1 => 01".data, "x =>".data, "2 ADD".data] =
      .error .notImplemented := by
  rfl

/-- C2 (counterexample): the text parser builds an operation with an
operand present for a three-token line whose mnemonic is not push-class,
so the claimed invariant fails for that parser variant. -/
theorem operand_without_push_counterexample :
    evm_op_from_dasm "0 ADD => 01".data = .ok ⟨0, ⟨"ADD".data, 1⟩, some 1⟩ ∧
    OpCode.is_push ⟨"ADD".data, 1⟩ = false :=
  ⟨rfl, rfl⟩

/-- C2 (amended): for the byte-stream parser the invariant does hold —
every produced operation carries an operand exactly when its opcode is
push-class.  The text parser sets the operand from any third token
without re-validating push-class. -/
theorem byte_parse_operand_iff_push (l : List Nat) (pc : Nat) (ops : List EVMOp)
    (h : bcParse l pc = .ok ops) :
    ∀ op ∈ ops, op.operand.isSome = op.opcode.is_push :=
  bcParse_operand_push l pc ops h

theorem byte_parse_operand_iff_push_witness :
    (⟨0, ⟨pushName 96, 96⟩, some 1⟩ : EVMOp).operand.isSome =
      OpCode.is_push ⟨pushName 96, 96⟩ :=
  byte_parse_operand_iff_push [96, 1] 0 [⟨0, ⟨pushName 96, 96⟩, some 1⟩]
    (by simp [bcParse, opcode_by_value, OpCode.is_push, PUSH1code, PUSH32code, fromBytesBE])
    ⟨0, ⟨pushName 96, 96⟩, some 1⟩ (by simp)

/-- C3 (counterexample): the line `"0=>1"` has two tokens after the `=>`
substitution, yet it is handled by the warning-and-skip path (no
operation, exactly one warning), because the guard counts tokens of the
raw line without the substitution. -/
theorem guard_presplit_counterexample :
    (wsSplit [] (subArrow "0=>1".data)).length = 2 ∧
    dasmParse ["0=>1".data] = .ok ([], 1) :=
  ⟨rfl, rfl⟩

/-- C3 (amended): the guard token count is taken from splitting the RAW
line, without the `=>` substitution; a line whose raw split has exactly
one token emits exactly one warning, produces no operation, and the
parse continues with the remaining lines. -/
theorem dasm_guard_presplit_one_token (l : List Char) (rest : List (List Char))
    (h : (wsSplit [] l).length = 1) :
    dasmParse (l :: rest) =
      match dasmParse rest with
      | .ok (ops, w) => .ok (ops, w + 1)
      | .error e => .error e := by
  rw [dasmParse]
  simp [h]

theorem dasm_guard_presplit_one_token_witness :
    dasmParse ["header".data, "2 ADD".data] =
      .ok ([⟨2, ⟨"ADD".data, 1⟩, none⟩], 1) :=
  dasm_guard_presplit_one_token "header".data ["2 ADD".data] rfl

/-- C4: operations produced by the byte-stream parser have strictly
increasing `pc` values, and each operation's `pc` equals the previous
one's plus `1 +` the previous opcode's immediate width. -/
theorem byte_parse_pc_stride (l : List Nat) (pc : Nat) (ops : List EVMOp)
    (h : bcParse l pc = .ok ops) :
    List.Chain' (fun a b => b.pc = a.pc + 1 + immWidth a.opcode) ops ∧
    List.Pairwise (fun a b => a.pc < b.pc) ops := by
  have hchain := bcParse_chain l pc ops h
  refine ⟨hchain, ?_⟩
  haveI : IsTrans EVMOp (fun a b => a.pc < b.pc) :=
    ⟨fun _ _ _ h1 h2 => Nat.lt_trans h1 h2⟩
  exact List.chain'_iff_pairwise.mp (hchain.imp (fun a b hab => by omega))

theorem byte_parse_pc_stride_witness :
    List.Chain' (fun a b => b.pc = a.pc + 1 + immWidth a.opcode)
      [(⟨0, ⟨pushName 96, 96⟩, some 1⟩ : EVMOp), ⟨2, ⟨pushName 96, 96⟩, some 2⟩,
       ⟨4, ⟨"ADD".data, 1⟩, none⟩] ∧
    List.Pairwise (fun a b => a.pc < b.pc)
      [(⟨0, ⟨pushName 96, 96⟩, some 1⟩ : EVMOp), ⟨2, ⟨pushName 96, 96⟩, some 2⟩,
       ⟨4, ⟨"ADD".data, 1⟩, none⟩] :=
  byte_parse_pc_stride [96, 1, 96, 2, 1] 0 _
    (by simp [bcParse, opcode_by_value, OpCode.is_push, PUSH1code, PUSH32code, fromBytesBE])

/-- C5: a byte buffer ending mid-immediate — a final push opcode whose
declared width exceeds the remaining bytes — parses without failure into
the preceding operations plus one final operation whose operand is the
big-endian value of only the bytes actually available. -/
theorem byte_parse_truncated_immediate (ops : List EVMOp) (b : Nat) (opd : OpCode)
    (rest : List Nat) (hwf : WFOps 0 ops = true)
    (hov : opcode_by_value b = some opd) (hp : opd.is_push = true)
    (hlen : rest.length < immWidth opd) :
    bcParse (encodeOps ops ++ b :: rest) 0 =
      .ok (ops ++ [⟨(encodeOps ops).length, opd, some (fromBytesBE rest)⟩]) :=
  bcParse_encode_trailing ops b opd rest hwf hov hp hlen

theorem byte_parse_truncated_immediate_witness :
    bcParse [97, 171] 0 = .ok [⟨0, ⟨pushName 97, 97⟩, some 171⟩] :=
  byte_parse_truncated_immediate [] 97 ⟨pushName 97, 97⟩ [171] rfl rfl rfl (by decide)

/-- C6: a line whose tokens (after the `=>` substitution) are a numeric
`PC` and a known `MNEMONIC` yields the operation with that `pc`, the
resolved opcode and no operand; with a third hex token the operand is
its base-16 value. -/
theorem dasm_valid_line_parse :
    (∀ (line p m : List Char) (pc : Nat) (op : OpCode),
      wsSplit [] (subArrow line) = [p, m] → parseDec p = some pc →
      opcode_by_name m = some op →
      evm_op_from_dasm line = .ok ⟨pc, op, none⟩) ∧
    (∀ (line p m h : List Char) (pc v : Nat) (op : OpCode),
      wsSplit [] (subArrow line) = [p, m, h] → parseDec p = some pc →
      opcode_by_name m = some op → parseHex h = some v →
      evm_op_from_dasm line = .ok ⟨pc, op, some v⟩) := by
  constructor
  · intro line p m pc op htoks hpc hop
    simp [evm_op_from_dasm, htoks, hpc, hop]
  · intro line p m h pc v op htoks hpc hop hhex
    simp [evm_op_from_dasm, htoks, hpc, hop, hhex]

theorem dasm_valid_line_parse_witness :
    evm_op_from_dasm "3 ADD".data = .ok ⟨3, ⟨"ADD".data, 1⟩, none⟩ ∧
    evm_op_from_dasm "0 PUSH1 => 1f".data = .ok ⟨0, ⟨pushName 96, 96⟩, some 31⟩ :=
  ⟨dasm_valid_line_parse.1 "3 ADD".data "3".data "ADD".data 3 ⟨"ADD".data, 1⟩
      rfl rfl rfl,
   dasm_valid_line_parse.2 "0 PUSH1 => 1f".data "0".data "PUSH1".data "1f".data 0 31
      ⟨pushName 96, 96⟩ rfl rfl rfl rfl⟩

/-- C7: encoding a well-formed (non-truncated) operation sequence back to
bytes — one opcode byte plus the immediate-width big-endian operand bytes
per push-class operation — and re-parsing reproduces the sequence. -/
theorem byte_parse_roundtrip (ops : List EVMOp) (hwf : WFOps 0 ops = true) :
    bcParse (encodeOps ops) 0 = .ok ops := by
  have h := bcParse_encodeOps ops 0 [] hwf
  rw [List.append_nil] at h
  rw [h, bcParse_nil]
  simp

theorem byte_parse_roundtrip_witness :
    bcParse [96, 1, 1] 0 =
      .ok [⟨0, ⟨pushName 96, 96⟩, some 1⟩, ⟨2, ⟨"ADD".data, 1⟩, none⟩] :=
  byte_parse_roundtrip [⟨0, ⟨pushName 96, 96⟩, some 1⟩, ⟨2, ⟨"ADD".data, 1⟩, none⟩] rfl

/-- C8 (counterexample): a buffer can contain a byte with no registered
opcode and still parse successfully — the unregistered byte 12 sits
inside PUSH1's immediate, so it is never looked up. -/
theorem unregistered_byte_in_immediate_ok :
    opcode_by_value 12 = none ∧
    bcParse [96, 12] 0 = .ok [⟨0, ⟨pushName 96, 96⟩, some 12⟩] := by
  refine ⟨rfl, ?_⟩
  simp [bcParse, opcode_by_value, OpCode.is_push, PUSH1code, PUSH32code, fromBytesBE]

/-- C8 (amended): when the byte at the current decode position (an opcode
boundary, not inside an immediate) has no registered opcode, the parse
fails hard with no partial result, and such a failure below propagates
uncaught through every earlier decode step. -/
theorem byte_parse_unregistered_aborts :
    (∀ (b : Nat) (rest : List Nat) (pc : Nat), opcode_by_value b = none →
      bcParse (b :: rest) pc = .error ()) ∧
    (∀ (b : Nat) (rest : List Nat) (pc : Nat) (op : OpCode),
      opcode_by_value b = some op →
      bcParse (rest.drop (immWidth op)) (pc + 1 + immWidth op) = .error () →
      bcParse (b :: rest) pc = .error ()) := by
  constructor
  · intro b rest pc hov
    rw [bcParse_cons]
    simp [hov]
  · intro b rest pc op hov hrec
    rw [bcParse_cons]
    simp [hov, hrec]

theorem byte_parse_unregistered_aborts_witness :
    opcode_by_value 12 = none ∧ bcParse [12] 0 = .error () :=
  ⟨rfl, byte_parse_unregistered_aborts.1 12 [] 0 rfl⟩

/-- Sanity: `bytes.fromhex` skips ASCII whitespace between byte pairs,
but not between the two digits of one pair. -/
theorem fromhex_sanity_ws :
    bytecode_from_hex "60 01".data = some [96, 1] ∧
    bytecode_from_hex "6 001".data = none :=
  ⟨rfl, rfl⟩

/-- C9: constructing the byte-stream parser from a hex string removes
every occurrence of `0x` (not only a leading marker) before decoding,
and — for a string of hex digits and whitespace — an odd number of
remaining hex digits makes construction fail. -/
theorem hex_constructor_strips_all_0x :
    bytecode_from_hex "60010x".data = some [96, 1] ∧
    bytecode_from_hex "0x600x01".data = some [96, 1] ∧
    ∀ (s : List Char),
      (∀ c ∈ strip0x s, (hexVal c).isSome = true ∨ isPySpace c = true) →
      ((strip0x s).filter fun c => (hexVal c).isSome).length % 2 = 1 →
      bytecode_from_hex s = none := by
  refine ⟨rfl, rfl, ?_⟩
  intro s hchars hodd
  apply fromhex_odd_nonws
  have hfil : ((strip0x s).filter fun c => !isPySpace c)
      = (strip0x s).filter fun c => (hexVal c).isSome := by
    apply List.filter_congr
    intro c hc
    rcases hchars c hc with hhex | hws
    · have hnws : isPySpace c = false := by
        cases hsp : isPySpace c
        · rfl
        · rw [hexVal_isPySpace c hsp] at hhex
          cases hhex
      rw [hnws, hhex]
      rfl
    · rw [hws, hexVal_isPySpace c hws]
      rfl
  rw [hfil]
  exact hodd

theorem hex_constructor_strips_all_0x_witness :
    ((strip0x "60 1".data).filter fun c => (hexVal c).isSome).length % 2 = 1 ∧
    bytecode_from_hex "60 1".data = none :=
  ⟨rfl, hex_constructor_strips_all_0x.2.2 "60 1".data (by decide) rfl⟩

/-- C10: a buffer whose final byte is a push opcode (zero immediate bytes
remaining) parses to a final operation whose operand is present and
equals 0, the big-endian value of the empty slice, and the parse
terminates normally. -/
theorem byte_parse_trailing_push_zero (ops : List EVMOp) (b : Nat) (opd : OpCode)
    (hwf : WFOps 0 ops = true) (hov : opcode_by_value b = some opd)
    (hp : opd.is_push = true) :
    bcParse (encodeOps ops ++ [b]) 0 =
      .ok (ops ++ [⟨(encodeOps ops).length, opd, some 0⟩]) := by
  have h := bcParse_encode_trailing ops b opd [] hwf hov hp
    (by simpa using immWidth_pos opd hp)
  simpa [fromBytesBE] using h

theorem byte_parse_trailing_push_zero_witness :
    bcParse [96] 0 = .ok [⟨0, ⟨pushName 96, 96⟩, some 0⟩] :=
  byte_parse_trailing_push_zero [] 96 ⟨pushName 96, 96⟩ rfl rfl rfl

end BlockParse
